import Mathlib

/-!
Verification of the Infinite Loop jukebox against its specification.

The development shallowly embeds the analysis pipeline (`services/analysis.ts`)
and the playback engine (`services/AudioEngine.ts`).  JavaScript numbers are
modelled as exact rationals (ℚ).  The two places where the source calls the
transcendental library functions `Math.sqrt`, `Math.cos`, `Math.sin` are kept
abstract: the beat detector is stated over an arbitrary per-window energy
sequence (the source computes each energy as the square root of a mean of
squares, and nothing downstream depends on more than the values themselves),
similarity computations are parametrised by the square-root function `sqrtQ`,
and the magnitude spectrum of a 2048-sample slice is parametrised by
`spectrumOf` (the source's naive DFT `simpleFFT`, whose outputs are Euclidean
norms and hence non-negative).  `Math.log2`/`Math.round` in the chroma folding
are modelled exactly over ℚ via `Int.log`.  The platform `OfflineAudioContext`
constructor invoked by `extractFeatures` — the pipeline's only failure path —
is outside the repository and its `NotSupportedError` condition is modelled
from the spec's words (see `extractFeatures`).
-/

namespace InfiniteLoop

/-- Data model from `types.ts`: a detected beat. -/
structure Beat where
  index : ℕ
  start : ℚ
  duration : ℚ
  feature : List ℚ
  totalEnergy : ℚ
deriving DecidableEq

/-- Data model from `types.ts`: a directed similarity edge between beat indices. -/
structure Edge where
  source : ℕ
  dest : ℕ
  similarity : ℚ
deriving DecidableEq

/-- Data model from `types.ts`: the user-facing playback settings. -/
structure PlayerSettings where
  branchChance : ℚ
  similarityThreshold : ℚ
deriving DecidableEq

/-- Data model from `types.ts`: the result of the analysis pipeline. -/
structure AnalysisData where
  beats : List Beat
  edges : List Edge
  threshold : ℚ
  duration : ℚ
deriving DecidableEq

/-- A `{start, duration}` segment as produced by `detectBeats`. -/
structure Seg where
  start : ℚ
  duration : ℚ
deriving DecidableEq

/-- `windowSize = 1024` from `detectBeats`. -/
def windowSize : ℕ := 1024

/-- `historySize = 43` from `detectBeats`. -/
def historySize : ℕ := 43

/-- `multiplier = 1.5` from `detectBeats`. -/
def multiplier : ℚ := 3 / 2

/-- `minBeatInterval = 13` from `detectBeats`. -/
def minBeatInterval : ℤ := 13

/-- The onset time `(i * windowSize) / sampleRate` computed in `detectBeats`. -/
def timeF (sr : ℚ) (i : ℕ) : ℚ := ((i * windowSize : ℕ) : ℚ) / sr

/-- The quantity the source's inner loop computes for window `i`:
`sumHistory` over `[max(0, i - 43), i)` divided by `i - start + 1`
(note the `+ 1`: the divisor is one more than the number of summed windows). -/
def avgHistoryAt (energies : List ℚ) (i : ℕ) : ℚ :=
  let start := i - historySize
  let sumHistory := ((energies.drop start).take (i - start)).sum
  sumHistory / ((i - start + 1 : ℕ) : ℚ)

/-- Mutable loop state of `detectBeats`: the beat list built so far and
`lastBeatIndex` (initially `-minBeatInterval`). -/
structure DetectState where
  beats : List Seg
  lastBeatIndex : ℤ
deriving DecidableEq

/-- `beats[beats.length - 1].duration = t - beats[beats.length - 1].start`:
the source's in-place update of the previous beat's duration, as a pure function. -/
def closeLast : List Seg → ℚ → List Seg
  | [], _ => []
  | [b], t => [⟨b.start, t - b.start⟩]
  | b :: bs, t => b :: closeLast bs t

/-- One iteration of the `detectBeats` main loop at window `i`. -/
def detectStep (sr : ℚ) (energies : List ℚ) (st : DetectState) (i : ℕ) : DetectState :=
  if energies.getD i 0 > avgHistoryAt energies i * multiplier ∧
      (i : ℤ) - st.lastBeatIndex > minBeatInterval then
    let time := timeF sr i
    { beats := closeLast st.beats time ++ [⟨time, 0⟩], lastBeatIndex := (i : ℤ) }
  else st

/-- `detectBeats` from `services/analysis.ts`, stated over the per-window energy
sequence (the source computes `energies[i] = sqrt(mean of squares)` of window `i`;
see `windowEnergies`).  `dataLen` is `data.length`; the final beat's duration is
closed to `data.length / sampleRate`. -/
def detectBeats (energies : List ℚ) (dataLen : ℕ) (sr : ℚ) : List Seg :=
  let st := (List.range energies.length).foldl (detectStep sr energies) ⟨[], -minBeatInterval⟩
  closeLast st.beats ((dataLen : ℚ) / sr)

/-- The RMS energy sequence computed at the top of `detectBeats`, parametrised by
the square-root function (`Math.sqrt`). -/
def windowEnergies (sqrtQ : ℚ → ℚ) (data : List ℚ) : List ℚ :=
  (List.range (data.length / windowSize)).map fun i =>
    sqrtQ ((((data.drop (i * windowSize)).take windowSize).map fun v => v * v).sum
      / (windowSize : ℚ))

/-- State for an onset-list characterisation of the detector loop. -/
structure OnsetState where
  onsets : List ℕ
  last : Option ℕ
deriving DecidableEq

/-- Interval side condition of the amended onset rule: strictly more than 13
windows since the last onset; before any onset, window `i` qualifies only if
`0 < i` (the code's virtual onset at window `-13`). -/
def onsetInterval (last : Option ℕ) (i : ℕ) : Bool :=
  match last with
  | none => decide (0 < i)
  | some l => decide (l + 13 < i)

/-- One step of the amended onset rule (spec words, corrected to match the code):
an onset at window `i` requires `energy[i] > avgHistory * 1.5` (with `avgHistory`
as in `avgHistoryAt`, divisor one larger than the window count) and strictly more
than 13 windows since the last onset, where before any onset the detector behaves
as if an onset had occurred at window `-13` (so window 0 can never be an onset). -/
def onsetStep (energies : List ℚ) (st : OnsetState) (i : ℕ) : OnsetState :=
  if energies.getD i 0 > avgHistoryAt energies i * multiplier ∧ onsetInterval st.last i then
    { onsets := st.onsets ++ [i], last := some i }
  else st

/-- The onset windows of the amended claim C4, for a given energy sequence. -/
def amendedOnsets (energies : List ℚ) : List ℕ :=
  ((List.range energies.length).foldl (onsetStep energies) ⟨[], none⟩).onsets

/-- Modelled from the words of claim C4 (NOT from the source): the arithmetic mean
of the energies of windows `[max(0, i - 43), i)` (empty mean is `0/0 = 0` in ℚ). -/
def claimAvgHistory (energies : List ℚ) (i : ℕ) : ℚ :=
  let start := i - historySize
  ((energies.drop start).take (i - start)).sum / ((i - start : ℕ) : ℚ)

/-- Interval side condition as stated by claim C4: at least 13 windows have
elapsed since the last declared onset (vacuously true before the first onset). -/
def claimInterval (last : Option ℕ) (i : ℕ) : Bool :=
  match last with
  | none => true
  | some l => decide (13 ≤ i - l)

/-- Modelled from the words of claim C4 (NOT from the source): onset at `i` when
`energy[i] > mean * 1.5` and at least 13 windows have elapsed since the last
declared onset. -/
def claimOnsetStep (energies : List ℚ) (st : OnsetState) (i : ℕ) : OnsetState :=
  if energies.getD i 0 > claimAvgHistory energies i * multiplier ∧ claimInterval st.last i then
    { onsets := st.onsets ++ [i], last := some i }
  else st

/-- The onset windows according to claim C4 as literally stated. -/
def claimOnsets (energies : List ℚ) : List ℕ :=
  ((List.range energies.length).foldl (claimOnsetStep energies) ⟨[], none⟩).onsets

/-- Consecutive segments are contiguous: each segment's end is the next one's start. -/
def Contig : List Seg → Prop
  | [] => True
  | [_] => True
  | a :: b :: r => a.start + a.duration = b.start ∧ Contig (b :: r)

lemma closeLast_map_start (bs : List Seg) (t : ℚ) :
    (closeLast bs t).map Seg.start = bs.map Seg.start := by
  induction bs with
  | nil => rfl
  | cons b bs ih =>
    cases bs with
    | nil => rfl
    | cons c r => simpa [closeLast] using ih

lemma closeLast_length (bs : List Seg) (t : ℚ) : (closeLast bs t).length = bs.length := by
  have := congrArg List.length (closeLast_map_start bs t)
  simpa using this

lemma closeLast_head_start (b : Seg) (bs : List Seg) (t : ℚ) :
    ∃ d r, closeLast (b :: bs) t = ⟨b.start, d⟩ :: r := by
  cases bs with
  | nil => exact ⟨t - b.start, [], rfl⟩
  | cons c r => exact ⟨b.duration, closeLast (c :: r) t, by cases b; rfl⟩

lemma contig_closeLast (bs : List Seg) (t : ℚ) (h : Contig bs) : Contig (closeLast bs t) := by
  induction bs with
  | nil => trivial
  | cons b bs ih =>
    cases bs with
    | nil => trivial
    | cons c r =>
      obtain ⟨hadj, hrest⟩ := h
      obtain ⟨d, rest, heq⟩ := closeLast_head_start c r t
      have : closeLast (b :: c :: r) t = b :: closeLast (c :: r) t := rfl
      rw [this, heq]
      exact ⟨by rw [← heq] at *; simpa [heq] using hadj, by rw [← heq]; exact ih hrest⟩

lemma contig_push (bs : List Seg) (t : ℚ) (h : Contig bs) :
    Contig (closeLast bs t ++ [⟨t, 0⟩]) := by
  induction bs with
  | nil => trivial
  | cons b bs ih =>
    cases bs with
    | nil => exact ⟨by ring, trivial⟩
    | cons c r =>
      obtain ⟨hadj, hrest⟩ := h
      obtain ⟨d, rest, heq⟩ := closeLast_head_start c r t
      have hcl : closeLast (b :: c :: r) t = b :: closeLast (c :: r) t := rfl
      rw [hcl, List.cons_append, heq, List.cons_append]
      constructor
      · simpa using hadj
      · rw [← List.cons_append, ← heq]
        exact ih hrest

lemma closeLast_last_end (bs : List Seg) (t : ℚ) (h : bs ≠ []) :
    ((closeLast bs t).getD ((closeLast bs t).length - 1) ⟨0, 0⟩).start
      + ((closeLast bs t).getD ((closeLast bs t).length - 1) ⟨0, 0⟩).duration = t := by
  induction bs with
  | nil => exact absurd rfl h
  | cons b bs ih =>
    cases bs with
    | nil => simp [closeLast]
    | cons c r =>
      have hcl : closeLast (b :: c :: r) t = b :: closeLast (c :: r) t := rfl
      have hlen : (closeLast (c :: r) t).length = r.length + 1 := by
        simpa using closeLast_length (c :: r) t
      have hne : closeLast (c :: r) t ≠ [] := by
        intro hemp
        rw [hemp] at hlen
        simp at hlen
      have := ih (by simp)
      rw [hcl]
      have hidx : (b :: closeLast (c :: r) t).length - 1 = ((closeLast (c :: r) t).length - 1) + 1 := by
        simp [hlen]
      rw [hidx, List.getD_cons_succ]
      exact this

lemma contig_foldl (sr : ℚ) (E : List ℚ) (l : List ℕ) :
    ∀ st : DetectState, Contig st.beats → Contig ((l.foldl (detectStep sr E) st).beats) := by
  induction l with
  | nil => intro st h; exact h
  | cons i l ih =>
    intro st h
    apply ih
    by_cases hc : E.getD i 0 > avgHistoryAt E i * multiplier ∧
        (i : ℤ) - st.lastBeatIndex > minBeatInterval
    · have hst : detectStep sr E st i
          = ⟨closeLast st.beats (timeF sr i) ++ [⟨timeF sr i, 0⟩], (i : ℤ)⟩ := by
        simp only [detectStep, if_pos hc]
      rw [hst]
      exact contig_push _ _ h
    · have hst : detectStep sr E st i = st := by
        simp only [detectStep, if_neg hc]
      rw [hst]
      exact h

/-- Relation between the integer `lastBeatIndex` of the source loop and the
optional last onset of the onset characterisation. -/
def lastRel : ℤ → Option ℕ → Prop
  | z, none => z = -minBeatInterval
  | z, some l => z = (l : ℤ)

lemma lastRel_interval (z : ℤ) (o : Option ℕ) (h : lastRel z o) (i : ℕ) :
    ((i : ℤ) - z > minBeatInterval) ↔ (onsetInterval o i = true) := by
  cases o with
  | none =>
    have hz : z = -minBeatInterval := h
    subst hz
    simp only [onsetInterval, minBeatInterval, decide_eq_true_eq]
    omega
  | some k =>
    have hz : z = (k : ℤ) := h
    subst hz
    simp only [onsetInterval, minBeatInterval, decide_eq_true_eq]
    omega

lemma detect_onset_correspond (sr : ℚ) (E : List ℚ) (l : List ℕ) :
    ∀ (st : DetectState) (os : OnsetState),
      st.beats.map Seg.start = os.onsets.map (timeF sr) →
      lastRel st.lastBeatIndex os.last →
      (l.foldl (detectStep sr E) st).beats.map Seg.start
          = (l.foldl (onsetStep E) os).onsets.map (timeF sr)
        ∧ lastRel (l.foldl (detectStep sr E) st).lastBeatIndex
            (l.foldl (onsetStep E) os).last := by
  induction l with
  | nil => intro st os h1 h2; exact ⟨h1, h2⟩
  | cons i l ih =>
    intro st os h1 h2
    have hstep : (detectStep sr E st i).beats.map Seg.start
          = (onsetStep E os i).onsets.map (timeF sr)
        ∧ lastRel (detectStep sr E st i).lastBeatIndex (onsetStep E os i).last := by
      by_cases hc : E.getD i 0 > avgHistoryAt E i * multiplier ∧
          (i : ℤ) - st.lastBeatIndex > minBeatInterval
      · have hc' : E.getD i 0 > avgHistoryAt E i * multiplier ∧
            onsetInterval os.last i = true :=
          ⟨hc.1, (lastRel_interval _ _ h2 i).mp hc.2⟩
        simp only [detectStep, onsetStep, if_pos hc, if_pos hc']
        refine ⟨?_, rfl⟩
        rw [List.map_append, closeLast_map_start, h1]
        simp
      · have hc' : ¬ (E.getD i 0 > avgHistoryAt E i * multiplier ∧
            onsetInterval os.last i = true) := by
          intro hcc
          exact hc ⟨hcc.1, (lastRel_interval _ _ h2 i).mpr hcc.2⟩
        simp only [detectStep, onsetStep, if_neg hc, if_neg hc']
        exact ⟨h1, h2⟩
    exact ih _ _ hstep.1 hstep.2

lemma contig_getD (l : List Seg) (h : Contig l) :
    ∀ i, i + 1 < l.length →
      (l.getD i ⟨0, 0⟩).start + (l.getD i ⟨0, 0⟩).duration = (l.getD (i + 1) ⟨0, 0⟩).start := by
  induction l with
  | nil => intro i hi; simp at hi
  | cons a l ih =>
    intro i hi
    cases l with
    | nil => simp at hi
    | cons b r =>
      obtain ⟨hadj, hrest⟩ := h
      cases i with
      | zero => simpa using hadj
      | succ j =>
        have := ih hrest j (by simpa using hi)
        simpa using this

lemma detectBeats_map_start (E : List ℚ) (dl : ℕ) (sr : ℚ) :
    (detectBeats E dl sr).map Seg.start = (amendedOnsets E).map (timeF sr) := by
  unfold detectBeats amendedOnsets
  rw [closeLast_map_start]
  exact (detect_onset_correspond sr E (List.range E.length)
    ⟨[], -minBeatInterval⟩ ⟨[], none⟩ rfl rfl).1

lemma amendedOnsets_pos (E : List ℚ) : ∀ o ∈ amendedOnsets E, 0 < o := by
  have h : ∀ (l : List ℕ) (os : OnsetState), (∀ o ∈ os.onsets, 0 < o) →
      (∀ k, os.last = some k → 0 < k) →
      ∀ o ∈ (l.foldl (onsetStep E) os).onsets, 0 < o := by
    intro l
    induction l with
    | nil => intro os h1 _; exact h1
    | cons i l ih =>
      intro os h1 h2
      by_cases hc : E.getD i 0 > avgHistoryAt E i * multiplier ∧ onsetInterval os.last i = true
      · have hi : 0 < i := by
          have := hc.2
          cases hos : os.last with
          | none =>
            rw [hos] at this
            simpa [onsetInterval] using this
          | some k =>
            rw [hos] at this
            simp only [onsetInterval, decide_eq_true_eq] at this
            omega
        have hst : onsetStep E os i = ⟨os.onsets ++ [i], some i⟩ := by
          simp only [onsetStep, if_pos hc]
        rw [List.foldl_cons, hst]
        apply ih
        · intro o ho
          rcases List.mem_append.mp ho with h' | h'
          · exact h1 o h'
          · simpa using List.mem_singleton.mp h' ▸ hi
        · intro k hk
          simp only [Option.some_inj] at hk
          omega
      · have hst : onsetStep E os i = os := by
          simp only [onsetStep, if_neg hc]
        rw [List.foldl_cons, hst]
        exact ih os h1 h2
  exact h (List.range E.length) ⟨[], none⟩ (by simp) (by simp)

/-- Claim C2, amended.  For every energy sequence, data length and sample rate,
the beat segments produced by `detectBeats` are contiguous
(`beats[i].start + beats[i].duration = beats[i+1].start`), the last beat's end
equals the total duration `dataLen / sampleRate`, and — contrary to the original
claim — the covered interval starts at the first onset time, which is strictly
positive whenever any beat exists (window 0 can never fire), not at 0. -/
theorem detectBeats_contiguous (E : List ℚ) (dl : ℕ) (sr : ℚ) :
    (∀ i, i + 1 < (detectBeats E dl sr).length →
      ((detectBeats E dl sr).getD i ⟨0, 0⟩).start
          + ((detectBeats E dl sr).getD i ⟨0, 0⟩).duration
        = ((detectBeats E dl sr).getD (i + 1) ⟨0, 0⟩).start)
    ∧ (detectBeats E dl sr ≠ [] →
      ((detectBeats E dl sr).getD ((detectBeats E dl sr).length - 1) ⟨0, 0⟩).start
          + ((detectBeats E dl sr).getD ((detectBeats E dl sr).length - 1) ⟨0, 0⟩).duration
        = (dl : ℚ) / sr)
    ∧ (0 < sr → detectBeats E dl sr ≠ [] →
        0 < ((detectBeats E dl sr).getD 0 ⟨0, 0⟩).start) := by
  have hfold : Contig ((List.range E.length).foldl (detectStep sr E)
      ⟨[], -minBeatInterval⟩).beats :=
    contig_foldl sr E (List.range E.length) ⟨[], -minBeatInterval⟩ trivial
  have hcontig : Contig (detectBeats E dl sr) := contig_closeLast _ _ hfold
  refine ⟨contig_getD _ hcontig, ?_, ?_⟩
  · intro hne
    simp only [detectBeats] at hne ⊢
    apply closeLast_last_end
    intro hemp
    rw [hemp] at hne
    exact hne rfl
  · intro hsr hne
    have hmap := detectBeats_map_start E dl sr
    cases hbs : detectBeats E dl sr with
    | nil => exact absurd hbs hne
    | cons b tl =>
      rw [hbs] at hmap
      cases hos : amendedOnsets E with
      | nil =>
        rw [hos] at hmap
        simp at hmap
      | cons o os =>
        rw [hos] at hmap
        simp only [List.map_cons, List.cons.injEq] at hmap
        have hopos : 0 < o := amendedOnsets_pos E o (by rw [hos]; exact List.mem_cons_self o os)
        have : 0 < timeF sr o := by
          unfold timeF
          apply div_pos _ hsr
          have : 0 < o * windowSize := by
            have : 0 < windowSize := by norm_num [windowSize]
            exact Nat.mul_pos hopos this
          exact_mod_cast this
        simpa [hmap.1] using this

/-- Counterexample to claim C2 as stated: on the energy sequence `[1, 100]`
(2048 samples at sample rate 1024) the detector produces a single beat starting
at time 1, not 0 — the interval `[0, 1)` is not covered by any beat, because the
first onset can never be at window 0. -/
theorem detectBeats_start_not_zero :
    detectBeats [1, 100] 2048 1024 = [⟨1, 1⟩]
    ∧ ((detectBeats [1, 100] 2048 1024).getD 0 ⟨0, 0⟩).start ≠ 0 := by
  have h : detectBeats [1, 100] 2048 1024 = [⟨1, 1⟩] := by
    norm_num [detectBeats, detectStep, avgHistoryAt, timeF, windowSize, historySize,
      multiplier, minBeatInterval, closeLast, List.range_succ]
  refine ⟨h, ?_⟩
  rw [h]
  norm_num [List.getD]

/-- Witness for `detectBeats_contiguous` at a concrete input. -/
theorem detectBeats_contiguous_witness :
    detectBeats [1, 100] 2048 1024 ≠ [] ∧ (0 : ℚ) < 1024 ∧
    (((detectBeats [1, 100] 2048 1024).getD
        ((detectBeats [1, 100] 2048 1024).length - 1) ⟨0, 0⟩).start
      + ((detectBeats [1, 100] 2048 1024).getD
        ((detectBeats [1, 100] 2048 1024).length - 1) ⟨0, 0⟩).duration
      = ((2048 : ℕ) : ℚ) / 1024)
    ∧ 0 < ((detectBeats [1, 100] 2048 1024).getD 0 ⟨0, 0⟩).start :=
  ⟨by norm_num [detectBeats, detectStep, avgHistoryAt, timeF, windowSize, historySize,
      multiplier, minBeatInterval, closeLast, List.range_succ],
   by norm_num,
   (detectBeats_contiguous [1, 100] 2048 1024).2.1
     (by norm_num [detectBeats, detectStep, avgHistoryAt, timeF, windowSize, historySize,
       multiplier, minBeatInterval, closeLast, List.range_succ]),
   (detectBeats_contiguous [1, 100] 2048 1024).2.2 (by norm_num)
     (by norm_num [detectBeats, detectStep, avgHistoryAt, timeF, windowSize, historySize,
       multiplier, minBeatInterval, closeLast, List.range_succ])⟩

/-- Claim C4, amended.  The start times of the detected beats are exactly the
onset windows of the amended rule (energy above `avgHistoryAt` — whose divisor
is one more than the number of windows averaged — times 1.5, and strictly more
than 13 windows since the last onset, window 0 never firing), converted to
seconds. -/
theorem detectBeats_onset_rule (E : List ℚ) (dl : ℕ) (sr : ℚ) :
    (detectBeats E dl sr).map Seg.start = (amendedOnsets E).map (timeF sr) :=
  detectBeats_map_start E dl sr

/-- Counterexample to claim C4 as stated, in both diverging aspects.
First sequence: at window 15 the code's threshold uses divisor 16 (sum of
windows `[0,15)` divided by 16, not the mean with divisor 15), so the code
fires (energy `0.95 > 1.5 * 9.9/16`) while the claimed mean rule does not
(`0.95 < 1.5 * 9.9/15`).  Second sequence: after an onset at window 1, the
code requires strictly more than 13 elapsed windows and so does not fire at
window 14, while the claimed "at least 13" rule does. -/
theorem detectBeats_onset_claim_false :
    ((detectBeats [0, 4, 59/10, 0, 0, 0, 0, 0, 0, 0, 0, 0, 0, 0, 0, 19/20]
        (16 * 1024) 1024).map Seg.start = [1, 15]
      ∧ claimOnsets [0, 4, 59/10, 0, 0, 0, 0, 0, 0, 0, 0, 0, 0, 0, 0, 19/20] = [1])
    ∧ ((detectBeats [0, 4, 0, 0, 0, 0, 0, 0, 0, 0, 0, 0, 0, 0, 1]
        (15 * 1024) 1024).map Seg.start = [1]
      ∧ claimOnsets [0, 4, 0, 0, 0, 0, 0, 0, 0, 0, 0, 0, 0, 0, 1] = [1, 14]) := by
  refine ⟨⟨?_, ?_⟩, ?_, ?_⟩ <;>
    norm_num [detectBeats, detectStep, avgHistoryAt, timeF, windowSize, historySize,
      multiplier, minBeatInterval, closeLast, List.range_succ,
      claimOnsets, claimOnsetStep, claimAvgHistory, claimInterval]

/-- `fftSize = 2048` from `extractFeaturesJS`. -/
def fftSize : ℕ := 2048

/-- Exact model of `Math.round(12 * Math.log2(freq / 440) + 69)` over ℚ.
For rational `f > 0`, `round(12 * log2(f/440)) = ⌈L / 2⌉` where
`L = ⌊log2((f/440)^24)⌋ = Int.log 2 ((f/440)^24)`, because
`round(x) = r ↔ r - 1/2 ≤ x < r + 1/2` and a rational `f` never attains the
irrational half-point boundaries `440 * 2^((2r±1)/24)`. -/
def midiOfFreq (f : ℚ) : ℤ :=
  ⌈((Int.log 2 ((f / 440) ^ 24) : ℤ) : ℚ) / 2⌉ + 69

/-- The pitch-class index `(Math.round(midi) % 12 + 12) % 12` from `foldToChroma`
(JavaScript `%` truncates toward zero, i.e. `Int.rem`; the second `%` acts on a
positive argument and agrees with `Int.emod`). -/
def pitchClassOf (f : ℚ) : ℕ :=
  (((midiOfFreq f).tmod 12 + 12).emod 12).toNat

/-- One iteration of the bin-folding loop of `foldToChroma` at bin `k`. -/
def chromaStep (spectrum : List ℚ) (sr : ℚ) (n : ℕ) (chroma : List ℚ) (k : ℕ) : List ℚ :=
  let v := spectrum.getD k 0
  if v = 0 then chroma
  else
    let freq := (k : ℚ) * sr / (n : ℚ)
    if freq < 100 then chroma
    else
      let idx := pitchClassOf freq
      chroma.set idx (chroma.getD idx 0 + v)

/-- The raw accumulated chroma vector of `foldToChroma`, before normalization
(the loop runs over bins `k = 1, ..., spectrum.length - 1`). -/
def chromaAccum (spectrum : List ℚ) (sr : ℚ) (n : ℕ) : List ℚ :=
  ((List.range spectrum.length).drop 1).foldl (chromaStep spectrum sr n) (List.replicate 12 0)

/-- `foldToChroma` from `services/analysis.ts`: fold the magnitude spectrum into
12 pitch classes and normalize by `Math.max(...chroma, 1)`. -/
def foldToChroma (spectrum : List ℚ) (sr : ℚ) (n : ℕ) : List ℚ :=
  let chroma := chromaAccum spectrum sr n
  let m := chroma.foldr max 1
  chroma.map fun v => v / m

/-- `Math.floor((beat.start + Math.min(0.05, beat.duration / 4)) * sampleRate)`. -/
def startSampleOf (b : Seg) (sr : ℚ) : ℤ :=
  ⌊(b.start + min (1 / 20) (b.duration / 4)) * sr⌋

/-- `Math.floor((beat.start + Math.min(0.3, beat.duration)) * sampleRate)`. -/
def endSampleOf (b : Seg) (sr : ℚ) : ℤ :=
  ⌊(b.start + min (3 / 10) b.duration) * sr⌋

/-- `len = endSample - startSample` from `extractFeaturesJS`. -/
def sliceLenOf (b : Seg) (sr : ℚ) : ℤ :=
  endSampleOf b sr - startSampleOf b sr

/-- `data.slice(startSample, startSample + fftSize)` from `extractFeaturesJS`. -/
def sliceOf (data : List ℚ) (sr : ℚ) (b : Seg) : List ℚ :=
  (data.drop (startSampleOf b sr).toNat).take fftSize

/-- The per-beat body of `extractFeaturesJS`: an all-zero 12-vector when the
selected slice is shorter than the FFT frame, otherwise the folded chroma of the
slice's magnitude spectrum.  `spectrumOf` stands for the source's `simpleFFT`
(a naive DFT whose outputs are Euclidean norms, hence non-negative). -/
def featureOfBeat (spectrumOf : List ℚ → List ℚ) (data : List ℚ) (sr : ℚ) (b : Seg) :
    List ℚ :=
  if sliceLenOf b sr < (fftSize : ℤ) then List.replicate 12 0
  else foldToChroma (spectrumOf (sliceOf data sr b)) sr fftSize

/-- `extractFeaturesJS` from `services/analysis.ts`. -/
def extractFeaturesJS (spectrumOf : List ℚ → List ℚ) (data : List ℚ) (sr : ℚ)
    (beats : List Seg) : List (List ℚ) :=
  beats.map (featureOfBeat spectrumOf data sr)

lemma getD_nonneg (l : List ℚ) (h : ∀ x ∈ l, 0 ≤ x) (i : ℕ) : 0 ≤ l.getD i 0 := by
  induction l generalizing i with
  | nil => simp
  | cons a t ih =>
    cases i with
    | zero => simpa using h a (by simp)
    | succ j => simpa using ih (fun x hx => h x (by simp [hx])) j

lemma chromaStep_length (s : List ℚ) (sr : ℚ) (n : ℕ) (c : List ℚ) (k : ℕ) :
    (chromaStep s sr n c k).length = c.length := by
  by_cases h1 : s.getD k 0 = 0
  · simp only [chromaStep]; rw [if_pos h1]
  · by_cases h2 : (k : ℚ) * sr / (n : ℚ) < 100
    · simp only [chromaStep]; rw [if_neg h1, if_pos h2]
    · simp only [chromaStep]; rw [if_neg h1, if_neg h2, List.length_set]

lemma chromaStep_nonneg (s : List ℚ) (sr : ℚ) (n : ℕ) (c : List ℚ) (k : ℕ)
    (hs : ∀ x ∈ s, 0 ≤ x) (hc : ∀ x ∈ c, 0 ≤ x) :
    ∀ x ∈ chromaStep s sr n c k, 0 ≤ x := by
  by_cases h1 : s.getD k 0 = 0
  · simp only [chromaStep]; rw [if_pos h1]; exact hc
  · by_cases h2 : (k : ℚ) * sr / (n : ℚ) < 100
    · simp only [chromaStep]; rw [if_neg h1, if_pos h2]; exact hc
    · intro x hx
      simp only [chromaStep] at hx
      rw [if_neg h1, if_neg h2] at hx
      rcases List.mem_or_eq_of_mem_set hx with h | h
      · exact hc x h
      · have hg := getD_nonneg c hc (pitchClassOf ((k : ℚ) * sr / (n : ℚ)))
        have hv : 0 ≤ s.getD k 0 := getD_nonneg s hs k
        rw [h]
        linarith

lemma chromaFold_length (s : List ℚ) (sr : ℚ) (n : ℕ) :
    ∀ (l : List ℕ) (c : List ℚ), (l.foldl (chromaStep s sr n) c).length = c.length := by
  intro l
  induction l with
  | nil => intro c; rfl
  | cons k l ih => intro c; rw [List.foldl_cons, ih, chromaStep_length]

lemma chromaAccum_length (s : List ℚ) (sr : ℚ) (n : ℕ) :
    (chromaAccum s sr n).length = 12 := by
  unfold chromaAccum
  rw [chromaFold_length]
  simp

lemma chromaAccum_nonneg (s : List ℚ) (sr : ℚ) (n : ℕ) (hs : ∀ x ∈ s, 0 ≤ x) :
    ∀ x ∈ chromaAccum s sr n, 0 ≤ x := by
  unfold chromaAccum
  have hfold : ∀ (l : List ℕ) (c : List ℚ), (∀ x ∈ c, 0 ≤ x) →
      ∀ x ∈ l.foldl (chromaStep s sr n) c, 0 ≤ x := by
    intro l
    induction l with
    | nil => intro c hc; exact hc
    | cons k l ih => intro c hc; exact ih _ (chromaStep_nonneg s sr n c k hs hc)
  apply hfold
  intro x hx
  rw [List.eq_of_mem_replicate hx]

lemma le_foldr_max (l : List ℚ) (b : ℚ) : b ≤ l.foldr max b := by
  induction l with
  | nil => exact le_rfl
  | cons x t ih => exact le_trans ih (le_max_right x (t.foldr max b))

lemma mem_le_foldr_max (l : List ℚ) (b : ℚ) : ∀ v ∈ l, v ≤ l.foldr max b := by
  induction l with
  | nil => intro v hv; simp at hv
  | cons x t ih =>
    intro v hv
    rcases List.mem_cons.mp hv with h | h
    · rw [h]; exact le_max_left x (t.foldr max b)
    · exact le_trans (ih v h) (le_max_right x (t.foldr max b))

lemma foldr_max_mem (l : List ℚ) (b : ℚ) : l.foldr max b = b ∨ l.foldr max b ∈ l := by
  induction l with
  | nil => exact Or.inl rfl
  | cons x t ih =>
    rcases le_total (t.foldr max b) x with h | h
    · exact Or.inr (by rw [List.foldr_cons, max_eq_left h]; exact List.mem_cons_self x t)
    · rw [List.foldr_cons, max_eq_right h]
      rcases ih with h' | h'
      · exact Or.inl h'
      · exact Or.inr (List.mem_cons_of_mem x h')

/-- Claim C5, amended.  Every feature vector has exactly 12 components, each in
`[0, 1]`; a degenerate slice (shorter than the 2048-sample frame) yields the
all-zero vector; and a component equal to 1 exists whenever some raw accumulated
chroma value reaches 1 — but NOT in general: normalization divides by
`max(...chroma, 1)`, so a quiet non-degenerate beat whose accumulated values all
stay below 1 yields a vector with no unit component. -/
theorem featureOfBeat_bounds (spectrumOf : List ℚ → List ℚ) (data : List ℚ) (sr : ℚ)
    (b : Seg) (hspec : ∀ x ∈ spectrumOf (sliceOf data sr b), 0 ≤ x) :
    (featureOfBeat spectrumOf data sr b).length = 12
    ∧ (∀ x ∈ featureOfBeat spectrumOf data sr b, 0 ≤ x ∧ x ≤ 1)
    ∧ (sliceLenOf b sr < (fftSize : ℤ) →
        featureOfBeat spectrumOf data sr b = List.replicate 12 0)
    ∧ ((fftSize : ℤ) ≤ sliceLenOf b sr →
        (∃ v ∈ chromaAccum (spectrumOf (sliceOf data sr b)) sr fftSize, 1 ≤ v) →
        ∃ x ∈ featureOfBeat spectrumOf data sr b, x = 1) := by
  by_cases hd : sliceLenOf b sr < (fftSize : ℤ)
  · refine ⟨by simp [featureOfBeat, hd], ?_, fun _ => by simp [featureOfBeat, hd], ?_⟩
    · intro x hx
      simp only [featureOfBeat, if_pos hd] at hx
      rw [List.eq_of_mem_replicate hx]
      norm_num
    · intro hge
      exact absurd hd (not_lt.mpr hge)
  · have hm1 : 1 ≤ (chromaAccum (spectrumOf (sliceOf data sr b)) sr fftSize).foldr max 1 :=
      le_foldr_max _ 1
    have hm0 : 0 < (chromaAccum (spectrumOf (sliceOf data sr b)) sr fftSize).foldr max 1 :=
      lt_of_lt_of_le one_pos hm1
    have hcnn : ∀ x ∈ chromaAccum (spectrumOf (sliceOf data sr b)) sr fftSize, 0 ≤ x :=
      chromaAccum_nonneg _ _ _ hspec
    have hff : featureOfBeat spectrumOf data sr b
        = (chromaAccum (spectrumOf (sliceOf data sr b)) sr fftSize).map
          (fun v => v / (chromaAccum (spectrumOf (sliceOf data sr b)) sr fftSize).foldr max 1) := by
      simp only [featureOfBeat, if_neg hd, foldToChroma]
    refine ⟨?_, ?_, fun hlt => absurd hlt hd, ?_⟩
    · rw [hff, List.length_map, chromaAccum_length]
    · intro x hx
      rw [hff] at hx
      obtain ⟨v, hv, rfl⟩ := List.mem_map.mp hx
      exact ⟨div_nonneg (hcnn v hv) (le_of_lt hm0),
        (div_le_one hm0).mpr (mem_le_foldr_max _ 1 v hv)⟩
    · intro _ hex
      obtain ⟨v, hv, hv1⟩ := hex
      rw [hff]
      rcases foldr_max_mem (chromaAccum (spectrumOf (sliceOf data sr b)) sr fftSize) 1
        with hmem | hmem
      · have hveq : v = 1 := le_antisymm (hmem ▸ mem_le_foldr_max _ 1 v hv) hv1
        refine ⟨v / (chromaAccum (spectrumOf (sliceOf data sr b)) sr fftSize).foldr max 1,
          List.mem_map_of_mem _ hv, ?_⟩
        rw [hveq, hmem]
        norm_num
      · exact ⟨(chromaAccum (spectrumOf (sliceOf data sr b)) sr fftSize).foldr max 1
            / (chromaAccum (spectrumOf (sliceOf data sr b)) sr fftSize).foldr max 1,
          List.mem_map_of_mem _ hmem, div_self (ne_of_gt hm0)⟩

lemma replicate_getD_zero (m k : ℕ) : (List.replicate m (0 : ℚ)).getD k 0 = 0 := by
  induction m generalizing k with
  | zero => simp
  | succ m ih =>
    cases k with
    | zero => simp
    | succ j => simp [List.replicate_succ, ih j]

lemma chromaAccum_zero (sr : ℚ) (n m : ℕ) :
    chromaAccum (List.replicate m 0) sr n = List.replicate 12 0 := by
  unfold chromaAccum
  have hfold : ∀ (l : List ℕ) (c : List ℚ),
      l.foldl (chromaStep (List.replicate m 0) sr n) c = c := by
    intro l
    induction l with
    | nil => intro c; rfl
    | cons k l ih =>
      intro c
      rw [List.foldl_cons, show chromaStep (List.replicate m 0) sr n c k = c from by
        simp [chromaStep, replicate_getD_zero]]
      exact ih c
  rw [hfold]

lemma foldToChroma_zero (sr : ℚ) (n m : ℕ) :
    foldToChroma (List.replicate m 0) sr n = List.replicate 12 0 := by
  simp only [foldToChroma, chromaAccum_zero]
  have hm : (List.replicate 12 (0 : ℚ)).foldr max 1 = 1 := by
    rcases foldr_max_mem (List.replicate 12 (0 : ℚ)) 1 with h | h
    · exact h
    · have h0 := List.eq_of_mem_replicate h
      have h1 := le_foldr_max (List.replicate 12 (0 : ℚ)) 1
      rw [h0] at h1
      linarith
  rw [hm, List.map_replicate]
  norm_num

/-- Counterexample to claim C5 as stated: a perfectly silent beat (2457 zero
samples at sample rate 8192, beat `{start 0, duration 0.3}`) has a
non-degenerate analysis slice of exactly 2048 samples (`sliceLenOf = 2048`),
yet its feature vector is all-zero — no component equals 1.  The constant
spectrum `replicate 1024 0` is faithful: the source's `simpleFFT` of 2048 zero
samples is a `Float32Array(1024)` of zeros. -/
theorem featureOfBeat_claim_false :
    extractFeaturesJS (fun _ => List.replicate 1024 0) (List.replicate 2457 0) 8192
        [⟨0, 3 / 10⟩] = [List.replicate 12 0]
    ∧ sliceLenOf ⟨0, 3 / 10⟩ 8192 = 2048
    ∧ ¬ (∃ x ∈ List.replicate 12 (0 : ℚ), x = 1) := by
  have hlen : sliceLenOf ⟨0, 3 / 10⟩ 8192 = 2048 := by
    norm_num [sliceLenOf, startSampleOf, endSampleOf]
  have hfeat : featureOfBeat (fun _ => List.replicate 1024 0) (List.replicate 2457 0) 8192
      ⟨0, 3 / 10⟩ = List.replicate 12 0 := by
    rw [show featureOfBeat (fun _ => List.replicate 1024 0) (List.replicate 2457 0) 8192
        ⟨0, 3 / 10⟩
        = if sliceLenOf ⟨0, 3 / 10⟩ 8192 < (fftSize : ℤ) then List.replicate 12 0
          else foldToChroma (List.replicate 1024 0) 8192 fftSize from rfl]
    rw [if_neg (by rw [hlen]; norm_num [fftSize])]
    exact foldToChroma_zero 8192 fftSize 1024
  refine ⟨?_, hlen, ?_⟩
  · simp only [extractFeaturesJS, List.map_cons, List.map_nil, hfeat]
  · rintro ⟨x, hx, hx1⟩
    rw [List.eq_of_mem_replicate hx] at hx1
    norm_num at hx1

/-- Witness for `featureOfBeat_bounds` at a concrete input. -/
theorem featureOfBeat_bounds_witness :
    (∀ x ∈ (fun _ : List ℚ => List.replicate 1024 (0 : ℚ)) (sliceOf [] 8192 ⟨0, 3 / 10⟩), 0 ≤ x)
    ∧ ((featureOfBeat (fun _ : List ℚ => List.replicate 1024 (0 : ℚ)) [] 8192
          ⟨0, 3 / 10⟩).length = 12
      ∧ (∀ x ∈ featureOfBeat (fun _ : List ℚ => List.replicate 1024 (0 : ℚ)) [] 8192
          ⟨0, 3 / 10⟩, 0 ≤ x ∧ x ≤ 1)
      ∧ (sliceLenOf ⟨0, 3 / 10⟩ 8192 < (fftSize : ℤ) →
          featureOfBeat (fun _ : List ℚ => List.replicate 1024 (0 : ℚ)) [] 8192 ⟨0, 3 / 10⟩
            = List.replicate 12 0)
      ∧ ((fftSize : ℤ) ≤ sliceLenOf ⟨0, 3 / 10⟩ 8192 →
          (∃ v ∈ chromaAccum ((fun _ : List ℚ => List.replicate 1024 (0 : ℚ))
              (sliceOf [] 8192 ⟨0, 3 / 10⟩)) 8192 fftSize, 1 ≤ v) →
          ∃ x ∈ featureOfBeat (fun _ : List ℚ => List.replicate 1024 (0 : ℚ)) [] 8192
            ⟨0, 3 / 10⟩, x = 1)) := by
  have hs : ∀ x ∈ (fun _ : List ℚ => List.replicate 1024 (0 : ℚ))
      (sliceOf [] 8192 ⟨0, 3 / 10⟩), 0 ≤ x := by
    intro x hx
    rw [List.eq_of_mem_replicate hx]
  exact ⟨hs, featureOfBeat_bounds _ [] 8192 ⟨0, 3 / 10⟩ hs⟩

/-- Dummy beat used for out-of-range indexing (JavaScript would yield
`undefined`; all indexed accesses proved about are in range). -/
def dummyBeat : Beat := ⟨0, 0, 0, [], 0⟩

/-- `euclideanDistance` from `services/analysis.ts`, parametrised by `Math.sqrt`:
the loop runs over the first vector's length, summing squared differences. -/
def euclideanDistance (sqrtQ : ℚ → ℚ) (a b : List ℚ) : ℚ :=
  sqrtQ (((List.range a.length).map fun i =>
    (a.getD i 0 - b.getD i 0) * (a.getD i 0 - b.getD i 0)).sum)

/-- The similarity of an ordered beat pair in `computeSimilarityEdges`:
`Math.max(0, 1 - dist / Math.sqrt(12))`. -/
def similarityOf (sqrtQ : ℚ → ℚ) (beats : List Beat) (i j : ℕ) : ℚ :=
  max 0 (1 - euclideanDistance sqrtQ (beats.getD i dummyBeat).feature
    (beats.getD j dummyBeat).feature / sqrtQ 12)

/-- `computeSimilarityEdges` from `services/analysis.ts`: all ordered pairs
`(i, j)` with `i ≠ j` whose similarity exceeds `0.3`. -/
def computeSimilarityEdges (sqrtQ : ℚ → ℚ) (beats : List Beat) : List Edge :=
  (List.range beats.length).flatMap fun i =>
    (List.range beats.length).filterMap fun j =>
      if i = j then none
      else if 3 / 10 < similarityOf sqrtQ beats i j then
        some ⟨i, j, similarityOf sqrtQ beats i j⟩
      else none

lemma mem_computeSimilarityEdges (sqrtQ : ℚ → ℚ) (beats : List Beat) (e : Edge) :
    e ∈ computeSimilarityEdges sqrtQ beats ↔
      ∃ i j, i < beats.length ∧ j < beats.length ∧ i ≠ j
        ∧ 3 / 10 < similarityOf sqrtQ beats i j ∧ e = ⟨i, j, similarityOf sqrtQ beats i j⟩ := by
  unfold computeSimilarityEdges
  simp only [List.mem_flatMap, List.mem_filterMap, List.mem_range]
  constructor
  · rintro ⟨i, hi, j, hj, hopt⟩
    by_cases hij : i = j
    · rw [if_pos hij] at hopt
      exact absurd hopt (by simp)
    · rw [if_neg hij] at hopt
      by_cases hsim : 3 / 10 < similarityOf sqrtQ beats i j
      · rw [if_pos hsim] at hopt
        exact ⟨i, j, hi, hj, hij, hsim, (Option.some_inj.mp hopt).symm⟩
      · rw [if_neg hsim] at hopt
        exact absurd hopt (by simp)
  · rintro ⟨i, j, hi, hj, hij, hsim, rfl⟩
    exact ⟨i, hi, j, hj, by rw [if_neg hij, if_pos hsim]⟩

lemma euclideanDistance_symm (sqrtQ : ℚ → ℚ) (a b : List ℚ) (h : a.length = b.length) :
    euclideanDistance sqrtQ a b = euclideanDistance sqrtQ b a := by
  unfold euclideanDistance
  congr 1
  rw [h]
  apply congrArg
  apply List.map_congr_left
  intro k _
  ring

lemma getD_feature_length (beats : List Beat) (hlen : ∀ b ∈ beats, b.feature.length = 12)
    (i : ℕ) (hi : i < beats.length) : (beats.getD i dummyBeat).feature.length = 12 := by
  rw [List.getD_eq_getElem?_getD, List.getElem?_eq_getElem hi]
  exact hlen _ (List.getElem_mem hi)

lemma similarityOf_symm (sqrtQ : ℚ → ℚ) (beats : List Beat)
    (hlen : ∀ b ∈ beats, b.feature.length = 12) (i j : ℕ)
    (hi : i < beats.length) (hj : j < beats.length) :
    similarityOf sqrtQ beats i j = similarityOf sqrtQ beats j i := by
  unfold similarityOf
  rw [euclideanDistance_symm _ _ _
    (by rw [getD_feature_length beats hlen i hi, getD_feature_length beats hlen j hj])]

/-- Claim C9.  An edge is materialized by `computeSimilarityEdges` exactly for
the ordered pairs `(i, j)` of valid beat indices with `i ≠ j` whose similarity
`max(0, 1 - euclideanDistance / sqrt(12))` exceeds `0.3`, and the edge carries
exactly that similarity value (`sqrtQ` stands for `Math.sqrt`). -/
theorem computeSimilarityEdges_invariant (sqrtQ : ℚ → ℚ) (beats : List Beat) (e : Edge) :
    e ∈ computeSimilarityEdges sqrtQ beats ↔
      (e.source < beats.length ∧ e.dest < beats.length ∧ e.source ≠ e.dest
        ∧ e.similarity = similarityOf sqrtQ beats e.source e.dest
        ∧ 3 / 10 < e.similarity) := by
  rw [mem_computeSimilarityEdges]
  constructor
  · rintro ⟨i, j, hi, hj, hij, hsim, rfl⟩
    exact ⟨hi, hj, hij, rfl, hsim⟩
  · rintro ⟨hi, hj, hij, hsv, hsim⟩
    refine ⟨e.source, e.dest, hi, hj, hij, hsv ▸ hsim, ?_⟩
    cases e
    simp_all

/-- Claim C8.  Similarity computed from the Euclidean distance of two feature
vectors is symmetric, and the graph builder materializes the edge `(i, j)` iff
it materializes `(j, i)` with the same similarity value (`sqrtQ` stands for
`Math.sqrt`; the features produced by analysis are always 12-vectors). -/
theorem similarity_symmetric (sqrtQ : ℚ → ℚ) (beats : List Beat)
    (hlen : ∀ b ∈ beats, b.feature.length = 12) (i j : ℕ)
    (hi : i < beats.length) (hj : j < beats.length) (s : ℚ) :
    similarityOf sqrtQ beats i j = similarityOf sqrtQ beats j i
    ∧ ((⟨i, j, s⟩ : Edge) ∈ computeSimilarityEdges sqrtQ beats
        ↔ (⟨j, i, s⟩ : Edge) ∈ computeSimilarityEdges sqrtQ beats) := by
  have hsym := similarityOf_symm sqrtQ beats hlen i j hi hj
  refine ⟨hsym, ?_⟩
  rw [mem_computeSimilarityEdges, mem_computeSimilarityEdges]
  constructor
  · rintro ⟨i', j', hi', hj', hij', hsim', heq⟩
    simp only [Edge.mk.injEq] at heq
    obtain ⟨rfl, rfl, rfl⟩ := heq
    exact ⟨j, i, hj, hi, Ne.symm hij', by rw [← hsym]; exact hsim', by rw [hsym]⟩
  · rintro ⟨i', j', hi', hj', hij', hsim', heq⟩
    simp only [Edge.mk.injEq] at heq
    obtain ⟨rfl, rfl, rfl⟩ := heq
    exact ⟨i, j, hi, hj, Ne.symm hij', by rw [hsym]; exact hsim', by rw [← hsym]⟩

/-- Witness for `similarity_symmetric` at a concrete input. -/
theorem similarity_symmetric_witness :
    (∀ b ∈ [(⟨0, 0, 1, List.replicate 12 0, 0⟩ : Beat), ⟨1, 1, 1, List.replicate 12 0, 0⟩],
      b.feature.length = 12)
    ∧ (0 : ℕ) < 2 ∧ (1 : ℕ) < 2
    ∧ (similarityOf (fun _ => 0)
          [(⟨0, 0, 1, List.replicate 12 0, 0⟩ : Beat), ⟨1, 1, 1, List.replicate 12 0, 0⟩] 0 1
        = similarityOf (fun _ => 0)
          [(⟨0, 0, 1, List.replicate 12 0, 0⟩ : Beat), ⟨1, 1, 1, List.replicate 12 0, 0⟩] 1 0
      ∧ ((⟨0, 1, 1⟩ : Edge) ∈ computeSimilarityEdges (fun _ => 0)
            [(⟨0, 0, 1, List.replicate 12 0, 0⟩ : Beat), ⟨1, 1, 1, List.replicate 12 0, 0⟩]
          ↔ (⟨1, 0, 1⟩ : Edge) ∈ computeSimilarityEdges (fun _ => 0)
            [(⟨0, 0, 1, List.replicate 12 0, 0⟩ : Beat), ⟨1, 1, 1, List.replicate 12 0, 0⟩])) := by
  have hlen : ∀ b ∈ [(⟨0, 0, 1, List.replicate 12 0, 0⟩ : Beat),
      ⟨1, 1, 1, List.replicate 12 0, 0⟩], b.feature.length = 12 := by
    intro b hb
    rcases List.mem_cons.mp hb with rfl | hb
    · rfl
    · rcases List.mem_cons.mp hb with rfl | hb
      · rfl
      · exact absurd hb (List.not_mem_nil b)
  exact ⟨hlen, by norm_num, by norm_num,
    similarity_symmetric (fun _ => 0) _ hlen 0 1 (by norm_num) (by norm_num) 1⟩

/-- The pipeline's failure taxonomy (spec section 7): an analysis error.  The
only failure path of `analyzeAudio` is the `NotSupportedError` thrown by the
platform's `OfflineAudioContext` constructor inside `extractFeatures`. -/
inductive AnalysisError where
  | notSupported
deriving DecidableEq

/-- `extractFeatures` from `services/analysis.ts`.  Its first statement
constructs `new OfflineAudioContext(1, fullBuffer.length, fullBuffer.sampleRate)`
(analysis.ts:108) — a platform API whose code is outside this repository.
Modelled from the spec: that constructor throws `NotSupportedError` exactly when
the sample sequence is empty or the sample rate is degenerate (the spec's
failure condition in section 4.4: "empty or the sample rate is non-positive");
otherwise the function falls through to the JavaScript DFT path
`extractFeaturesJS`. -/
def extractFeatures (spectrumOf : List ℚ → List ℚ) (data : List ℚ) (sr : ℚ)
    (beats : List Seg) : Except AnalysisError (List (List ℚ)) :=
  if data.length = 0 ∨ sr ≤ 0 then Except.error AnalysisError.notSupported
  else Except.ok (extractFeaturesJS spectrumOf data sr beats)

/-- `analyzeAudio` from `services/analysis.ts`, parametrised by `Math.sqrt`
(`sqrtQ`) and the magnitude spectrum of `simpleFFT` (`spectrumOf`).  It runs
beat detection, then awaits `extractFeatures` — whose `OfflineAudioContext`
construction is the pipeline's only failure path, rejecting the promise and
publishing nothing — and otherwise assembles the `AnalysisData` with default
threshold `0.4` and duration `data.length / sampleRate`. -/
def analyzeAudio (sqrtQ : ℚ → ℚ) (spectrumOf : List ℚ → List ℚ) (data : List ℚ) (sr : ℚ) :
    Except AnalysisError AnalysisData :=
  let beats := detectBeats (windowEnergies sqrtQ data) data.length sr
  match extractFeatures spectrumOf data sr beats with
  | Except.error e => Except.error e
  | Except.ok features =>
    let beatObjects : List Beat := (List.range beats.length).map fun i =>
      ⟨i, (beats.getD i ⟨0, 0⟩).start, (beats.getD i ⟨0, 0⟩).duration, features.getD i [], 0⟩
    Except.ok ⟨beatObjects, computeSimilarityEdges sqrtQ beatObjects, 2 / 5,
      (data.length : ℚ) / sr⟩

/-- Claim C3.  The pipeline fails with an analysis error if and only if the
input sample sequence is empty or the sample rate is non-positive — the
`OfflineAudioContext` construction inside `extractFeatures`, modelled from the
spec, is the only failure path; in the failure case the error carries no
`AnalysisData` (nothing partial is published), and for every non-empty input
with positive sample rate the pipeline succeeds. -/
theorem analyzeAudio_error_iff (sqrtQ : ℚ → ℚ) (spectrumOf : List ℚ → List ℚ)
    (data : List ℚ) (sr : ℚ) :
    (analyzeAudio sqrtQ spectrumOf data sr = Except.error AnalysisError.notSupported
      ↔ (data = [] ∨ sr ≤ 0))
    ∧ (data ≠ [] → 0 < sr → (analyzeAudio sqrtQ spectrumOf data sr).isOk = true) := by
  have hiff : (data.length = 0 ∨ sr ≤ 0) ↔ (data = [] ∨ sr ≤ 0) := by
    rw [List.length_eq_zero]
  by_cases h : data = [] ∨ sr ≤ 0
  · refine ⟨⟨fun _ => h, fun _ => ?_⟩, ?_⟩
    · simp only [analyzeAudio, extractFeatures, if_pos (hiff.mpr h)]
    · intro hne hpos
      rcases h with h | h
      · exact absurd h hne
      · linarith
  · have hn : ¬ (data.length = 0 ∨ sr ≤ 0) := fun hc => h (hiff.mp hc)
    refine ⟨⟨fun heq => ?_, fun hc => absurd hc h⟩, fun _ _ => ?_⟩
    · simp only [analyzeAudio, extractFeatures, if_neg hn] at heq
      exact Except.noConfusion heq
    · simp only [analyzeAudio, extractFeatures, if_neg hn]
      rfl

/-- Witness for `analyzeAudio_error_iff` (claim C3) at concrete inputs: a
one-sample input at rate 44100 succeeds, and the empty input at rate 0 fails
with the analysis error. -/
theorem analyzeAudio_error_iff_witness :
    (([0] : List ℚ) ≠ [] ∧ (0 : ℚ) < 44100
      ∧ (analyzeAudio (fun _ => 0) (fun _ => []) [0] 44100).isOk = true)
    ∧ analyzeAudio (fun _ => 0) (fun _ => []) [] 0
        = Except.error AnalysisError.notSupported :=
  ⟨⟨by simp, by norm_num,
    (analyzeAudio_error_iff (fun _ => 0) (fun _ => []) [0] 44100).2
      (by simp) (by norm_num)⟩,
   (analyzeAudio_error_iff (fun _ => 0) (fun _ => []) [] 0).1.mpr (Or.inl rfl)⟩

/-- The mutable fields of `AudioEngine` relevant to scheduling and advancing. -/
structure EngineState where
  beats : List Beat
  edges : List Edge
  settings : PlayerSettings
  currentBeatIndex : ℕ
  nextNoteTime : ℚ
deriving DecidableEq

/-- `setData` from `AudioEngine`: replaces `beats` and `edges` wholesale and
changes nothing else — in particular it does NOT reset `currentBeatIndex`. -/
def setData (st : EngineState) (beats : List Beat) (edges : List Edge) : EngineState :=
  { st with beats := beats, edges := edges }

/-- The candidate filter inside `advanceBeat`: edges from the current beat,
similar enough under the live threshold, excluding the immediate successor. -/
def branchCandidates (st : EngineState) : List Edge :=
  st.edges.filter fun e =>
    decide (e.source = st.currentBeatIndex
      ∧ e.similarity ≥ st.settings.similarityThreshold
      ∧ e.dest ≠ st.currentBeatIndex + 1)

/-- The linear-advance tail of `advanceBeat`: increment, wrapping to 0 at the
beat count. -/
def linearStep (st : EngineState) : EngineState :=
  { st with currentBeatIndex :=
      if st.currentBeatIndex + 1 ≥ st.beats.length then 0 else st.currentBeatIndex + 1 }

/-- Dummy edge used for indexing. -/
def dummyEdge : Edge := ⟨0, 0, 0⟩

/-- `advanceBeat` from `AudioEngine`.  The two `Math.random()` draws are passed
in as `r1` (the branch decision, compared against `branchChance`) and `r2`
(the uniform candidate pick, used as `Math.floor(r2 * candidates.length)`).
An out-of-range `currentBeatIndex` returns early, leaving the state unchanged
(including `nextNoteTime`). -/
def advanceBeat (st : EngineState) (r1 r2 : ℚ) : EngineState :=
  match st.beats[st.currentBeatIndex]? with
  | none => st
  | some b =>
    let st1 : EngineState := { st with nextNoteTime := st.nextNoteTime + b.duration }
    if r1 < st1.settings.branchChance then
      if 0 < (branchCandidates st1).length then
        { st1 with currentBeatIndex :=
            ((branchCandidates st1).getD
              (⌊r2 * ((branchCandidates st1).length : ℚ)⌋).toNat dummyEdge).dest }
      else linearStep st1
    else linearStep st1

/-- `scheduleNote` from `AudioEngine`: yields the scheduled segment
`(startTime, offsetInBuffer, durationInBuffer)`, or `none` — a silent no-op —
when there is no decoded buffer or the beat index is out of range. -/
def scheduleNote (hasBuffer : Bool) (beats : List Beat) (beatIndex : ℕ) (time : ℚ) :
    Option (ℚ × ℚ × ℚ) :=
  if hasBuffer = false ∨ beats[beatIndex]? = none then none
  else some (time, (beats.getD beatIndex dummyBeat).start, (beats.getD beatIndex dummyBeat).duration)

/-- The `while` loop of `scheduler()` as a fuel-bounded recursion.  One
iteration runs while `nextNoteTime < now + 0.1` (the lookahead window),
scheduling the current beat (appending any scheduled segment to `log`) and
then advancing; the result is `none` when the loop has not exited within
`fuel` iterations.  `nowSeq k` is the audio-clock reading at remaining fuel
`k`, and `rand` supplies the `Math.random()` draws of each `advanceBeat`. -/
def schedulerTick (hasBuffer : Bool) (nowSeq : ℕ → ℚ) (rand : ℕ → ℚ × ℚ) :
    ℕ → EngineState → List (ℚ × ℚ × ℚ) → Option (EngineState × List (ℚ × ℚ × ℚ))
  | 0, _, _ => none
  | fuel + 1, st, log =>
    if st.nextNoteTime < nowSeq fuel + 1 / 10 then
      schedulerTick hasBuffer nowSeq rand fuel
        (advanceBeat st (rand fuel).1 (rand fuel).2)
        (match scheduleNote hasBuffer st.beats st.currentBeatIndex st.nextNoteTime with
          | none => log
          | some entry => log ++ [entry])
    else some (st, log)

lemma advanceBeat_idx_branch (st : EngineState) (r1 r2 : ℚ)
    (hi : st.currentBeatIndex < st.beats.length)
    (hbr : r1 < st.settings.branchChance) (hne : branchCandidates st ≠ []) :
    (advanceBeat st r1 r2).currentBeatIndex
      = ((branchCandidates st).getD
          (⌊r2 * ((branchCandidates st).length : ℚ)⌋).toNat dummyEdge).dest := by
  have hn : 0 < (branchCandidates st).length := List.length_pos.mpr hne
  unfold advanceBeat
  split
  next heq =>
    rw [List.getElem?_eq_getElem hi] at heq
    exact absurd heq (by simp)
  next b heq =>
    dsimp only
    rw [if_pos hbr, show branchCandidates
        { st with nextNoteTime := st.nextNoteTime + b.duration }
        = branchCandidates st from rfl, if_pos hn]

lemma advanceBeat_idx_linear (st : EngineState) (r1 r2 : ℚ)
    (hi : st.currentBeatIndex < st.beats.length)
    (h : ¬ (r1 < st.settings.branchChance ∧ branchCandidates st ≠ [])) :
    (advanceBeat st r1 r2).currentBeatIndex
      = if st.currentBeatIndex + 1 ≥ st.beats.length then 0 else st.currentBeatIndex + 1 := by
  unfold advanceBeat
  split
  next heq =>
    rw [List.getElem?_eq_getElem hi] at heq
    exact absurd heq (by simp)
  next b heq =>
    dsimp only
    by_cases hbr : r1 < st.settings.branchChance
    · have hemp : branchCandidates st = [] := by
        by_contra hne
        exact h ⟨hbr, hne⟩
      rw [if_pos hbr, show branchCandidates
          { st with nextNoteTime := st.nextNoteTime + b.duration }
          = branchCandidates st from rfl, hemp, if_neg (by simp)]
      rfl
    · rw [if_neg hbr]
      rfl

/-- Claim C1.  On every advance with an in-range `currentBeatIndex` and a
uniform draw `r2 ∈ [0, 1)`: the candidate set is exactly the stored edges with
`source = currentBeatIndex`, `similarity ≥ settings.similarityThreshold` and
`dest ≠ currentBeatIndex + 1`; when the branch draw `r1` is below
`settings.branchChance` and that set is non-empty, the new index is the `dest`
of the uniformly picked candidate (index `⌊r2·n⌋`); in every other case the
index is incremented by 1, wrapping to 0 at the beat count. -/
theorem advanceBeat_rule (st : EngineState) (r1 r2 : ℚ)
    (hi : st.currentBeatIndex < st.beats.length) (h0 : 0 ≤ r2) (h1 : r2 < 1) :
    (∀ e, e ∈ branchCandidates st ↔
      (e ∈ st.edges ∧ e.source = st.currentBeatIndex
        ∧ st.settings.similarityThreshold ≤ e.similarity
        ∧ e.dest ≠ st.currentBeatIndex + 1))
    ∧ ((r1 < st.settings.branchChance ∧ branchCandidates st ≠ []) →
        ∃ hk : (⌊r2 * ((branchCandidates st).length : ℚ)⌋).toNat
            < (branchCandidates st).length,
          (advanceBeat st r1 r2).currentBeatIndex
            = ((branchCandidates st).get
                ⟨(⌊r2 * ((branchCandidates st).length : ℚ)⌋).toNat, hk⟩).dest)
    ∧ (¬ (r1 < st.settings.branchChance ∧ branchCandidates st ≠ []) →
        (advanceBeat st r1 r2).currentBeatIndex
          = if st.currentBeatIndex + 1 = st.beats.length then 0
            else st.currentBeatIndex + 1) := by
  refine ⟨?_, ?_, ?_⟩
  · intro e
    simp [branchCandidates, List.mem_filter, and_assoc]
  · rintro ⟨hbr, hne⟩
    have hn : 0 < (branchCandidates st).length := List.length_pos.mpr hne
    have hnq : (0 : ℚ) < ((branchCandidates st).length : ℚ) := by exact_mod_cast hn
    have hl2 : r2 * ((branchCandidates st).length : ℚ)
        < ((branchCandidates st).length : ℚ) := by nlinarith
    have hfl : ⌊r2 * ((branchCandidates st).length : ℚ)⌋
        < ((branchCandidates st).length : ℤ) := by
      rw [Int.floor_lt]
      exact_mod_cast hl2
    have hfg : 0 ≤ ⌊r2 * ((branchCandidates st).length : ℚ)⌋ :=
      Int.le_floor.mpr (by positivity)
    have hk : (⌊r2 * ((branchCandidates st).length : ℚ)⌋).toNat
        < (branchCandidates st).length := by omega
    refine ⟨hk, ?_⟩
    rw [advanceBeat_idx_branch st r1 r2 hi hbr hne]
    rw [List.getD_eq_getElem?_getD, List.getElem?_eq_getElem hk]
    simp
  · intro h
    rw [advanceBeat_idx_linear st r1 r2 hi h]
    have hiff : (st.currentBeatIndex + 1 ≥ st.beats.length) ↔
        (st.currentBeatIndex + 1 = st.beats.length) := by omega
    simp only [hiff]

/-- Witness for `advanceBeat_rule` at a concrete input. -/
theorem advanceBeat_rule_witness :
    ((⟨[dummyBeat, dummyBeat], [⟨0, 0, 1⟩], ⟨7 / 20, 9 / 20⟩, 0, 0⟩ :
        EngineState).currentBeatIndex
      < (⟨[dummyBeat, dummyBeat], [⟨0, 0, 1⟩], ⟨7 / 20, 9 / 20⟩, 0, 0⟩ :
        EngineState).beats.length)
    ∧ (0 : ℚ) ≤ 0 ∧ (0 : ℚ) < 1
    ∧ ((∀ e, e ∈ branchCandidates
          ⟨[dummyBeat, dummyBeat], [⟨0, 0, 1⟩], ⟨7 / 20, 9 / 20⟩, 0, 0⟩ ↔
        (e ∈ (⟨[dummyBeat, dummyBeat], [⟨0, 0, 1⟩], ⟨7 / 20, 9 / 20⟩, 0, 0⟩ :
            EngineState).edges
          ∧ e.source = (⟨[dummyBeat, dummyBeat], [⟨0, 0, 1⟩], ⟨7 / 20, 9 / 20⟩, 0, 0⟩ :
            EngineState).currentBeatIndex
          ∧ (⟨[dummyBeat, dummyBeat], [⟨0, 0, 1⟩], ⟨7 / 20, 9 / 20⟩, 0, 0⟩ :
            EngineState).settings.similarityThreshold ≤ e.similarity
          ∧ e.dest ≠ (⟨[dummyBeat, dummyBeat], [⟨0, 0, 1⟩], ⟨7 / 20, 9 / 20⟩, 0, 0⟩ :
            EngineState).currentBeatIndex + 1))
      ∧ (((0 : ℚ) < (⟨[dummyBeat, dummyBeat], [⟨0, 0, 1⟩], ⟨7 / 20, 9 / 20⟩, 0, 0⟩ :
            EngineState).settings.branchChance
          ∧ branchCandidates
            ⟨[dummyBeat, dummyBeat], [⟨0, 0, 1⟩], ⟨7 / 20, 9 / 20⟩, 0, 0⟩ ≠ []) →
          ∃ hk : (⌊(0 : ℚ) * ((branchCandidates
              ⟨[dummyBeat, dummyBeat], [⟨0, 0, 1⟩], ⟨7 / 20, 9 / 20⟩, 0, 0⟩).length : ℚ)⌋).toNat
              < (branchCandidates
                ⟨[dummyBeat, dummyBeat], [⟨0, 0, 1⟩], ⟨7 / 20, 9 / 20⟩, 0, 0⟩).length,
            (advanceBeat ⟨[dummyBeat, dummyBeat], [⟨0, 0, 1⟩], ⟨7 / 20, 9 / 20⟩, 0, 0⟩
                0 0).currentBeatIndex
              = ((branchCandidates
                  ⟨[dummyBeat, dummyBeat], [⟨0, 0, 1⟩], ⟨7 / 20, 9 / 20⟩, 0, 0⟩).get
                  ⟨(⌊(0 : ℚ) * ((branchCandidates
                    ⟨[dummyBeat, dummyBeat], [⟨0, 0, 1⟩],
                      ⟨7 / 20, 9 / 20⟩, 0, 0⟩).length : ℚ)⌋).toNat, hk⟩).dest)
      ∧ (¬ ((0 : ℚ) < (⟨[dummyBeat, dummyBeat], [⟨0, 0, 1⟩], ⟨7 / 20, 9 / 20⟩, 0, 0⟩ :
            EngineState).settings.branchChance
          ∧ branchCandidates
            ⟨[dummyBeat, dummyBeat], [⟨0, 0, 1⟩], ⟨7 / 20, 9 / 20⟩, 0, 0⟩ ≠ []) →
          (advanceBeat ⟨[dummyBeat, dummyBeat], [⟨0, 0, 1⟩], ⟨7 / 20, 9 / 20⟩, 0, 0⟩
              0 0).currentBeatIndex
            = if (⟨[dummyBeat, dummyBeat], [⟨0, 0, 1⟩], ⟨7 / 20, 9 / 20⟩, 0, 0⟩ :
                EngineState).currentBeatIndex + 1
                = (⟨[dummyBeat, dummyBeat], [⟨0, 0, 1⟩], ⟨7 / 20, 9 / 20⟩, 0, 0⟩ :
                EngineState).beats.length then 0
              else (⟨[dummyBeat, dummyBeat], [⟨0, 0, 1⟩], ⟨7 / 20, 9 / 20⟩, 0, 0⟩ :
                EngineState).currentBeatIndex + 1)) :=
  ⟨by norm_num, le_rfl, by norm_num,
    advanceBeat_rule ⟨[dummyBeat, dummyBeat], [⟨0, 0, 1⟩], ⟨7 / 20, 9 / 20⟩, 0, 0⟩
      0 0 (by norm_num) le_rfl (by norm_num)⟩

/-- Claim C10.  At the last beat (index `N - 1` of an `N`-beat list) the
candidate filter excludes only destination `N` — an index no beat has — so a
branch may jump to beat 0, even though beat 0 is exactly what linear advance
with wraparound would play next: for a sufficiently similar stored edge
`(N - 1) → 0` and a branch-taking draw, some uniform pick lands on it and the
advance sets `currentBeatIndex = 0`. -/
theorem advanceBeat_wraparound_branch (st : EngineState) (r1 s : ℚ)
    (hne : st.beats ≠ []) (hlast : st.currentBeatIndex = st.beats.length - 1) :
    (∀ e, e ∈ branchCandidates st ↔
      (e ∈ st.edges ∧ e.source = st.beats.length - 1
        ∧ st.settings.similarityThreshold ≤ e.similarity ∧ e.dest ≠ st.beats.length))
    ∧ ((⟨st.beats.length - 1, 0, s⟩ : Edge) ∈ st.edges →
        st.settings.similarityThreshold ≤ s → r1 < st.settings.branchChance →
        ∃ r2, 0 ≤ r2 ∧ r2 < 1 ∧ (advanceBeat st r1 r2).currentBeatIndex = 0) := by
  have hlen : 0 < st.beats.length := List.length_pos.mpr hne
  have hsucc : st.currentBeatIndex + 1 = st.beats.length := by omega
  constructor
  · intro e
    rw [show (st.beats.length - 1 = st.currentBeatIndex) from by omega, ← hsucc]
    simp [branchCandidates, List.mem_filter, and_assoc]
  · intro hmem hsim hbr
    have hcand : (⟨st.beats.length - 1, 0, s⟩ : Edge) ∈ branchCandidates st := by
      rw [branchCandidates, List.mem_filter]
      refine ⟨hmem, ?_⟩
      rw [decide_eq_true_eq]
      exact ⟨show st.beats.length - 1 = st.currentBeatIndex by omega, hsim,
        show (0 : ℕ) ≠ st.currentBeatIndex + 1 by omega⟩
    have hcne : branchCandidates st ≠ [] := by
      intro hemp
      rw [hemp] at hcand
      exact List.not_mem_nil _ hcand
    have hn : 0 < (branchCandidates st).length := List.length_pos.mpr hcne
    have hnq : (0 : ℚ) < ((branchCandidates st).length : ℚ) := by exact_mod_cast hn
    obtain ⟨⟨k, hk⟩, hget⟩ := List.mem_iff_get.mp hcand
    refine ⟨(k : ℚ) / ((branchCandidates st).length : ℚ), by positivity, ?_, ?_⟩
    · rw [div_lt_one hnq]
      exact_mod_cast hk
    · rw [advanceBeat_idx_branch st r1 _ (by omega) hbr hcne]
      rw [div_mul_cancel₀ _ (ne_of_gt hnq), Int.floor_natCast, Int.toNat_natCast]
      rw [List.getD_eq_getElem?_getD, List.getElem?_eq_getElem hk]
      rw [show (branchCandidates st)[k] = (branchCandidates st).get ⟨k, hk⟩ from rfl, hget]
      rfl

/-- Witness for `advanceBeat_wraparound_branch` at a concrete input. -/
theorem advanceBeat_wraparound_branch_witness :
    ((⟨[dummyBeat, dummyBeat], [⟨1, 0, 1⟩], ⟨1, 1 / 2⟩, 1, 0⟩ :
      EngineState).beats ≠ [])
    ∧ ((⟨[dummyBeat, dummyBeat], [⟨1, 0, 1⟩], ⟨1, 1 / 2⟩, 1, 0⟩ :
        EngineState).currentBeatIndex
      = (⟨[dummyBeat, dummyBeat], [⟨1, 0, 1⟩], ⟨1, 1 / 2⟩, 1, 0⟩ :
        EngineState).beats.length - 1)
    ∧ ((⟨(⟨[dummyBeat, dummyBeat], [⟨1, 0, 1⟩], ⟨1, 1 / 2⟩, 1, 0⟩ :
          EngineState).beats.length - 1, 0, 1⟩ : Edge)
        ∈ (⟨[dummyBeat, dummyBeat], [⟨1, 0, 1⟩], ⟨1, 1 / 2⟩, 1, 0⟩ : EngineState).edges)
    ∧ ((⟨[dummyBeat, dummyBeat], [⟨1, 0, 1⟩], ⟨1, 1 / 2⟩, 1, 0⟩ :
        EngineState).settings.similarityThreshold ≤ 1)
    ∧ ((0 : ℚ) < (⟨[dummyBeat, dummyBeat], [⟨1, 0, 1⟩], ⟨1, 1 / 2⟩, 1, 0⟩ :
        EngineState).settings.branchChance)
    ∧ (∃ r2, 0 ≤ r2 ∧ r2 < 1
        ∧ (advanceBeat ⟨[dummyBeat, dummyBeat], [⟨1, 0, 1⟩], ⟨1, 1 / 2⟩, 1, 0⟩
            0 r2).currentBeatIndex = 0) := by
  have h1 : (⟨[dummyBeat, dummyBeat], [⟨1, 0, 1⟩], ⟨1, 1 / 2⟩, 1, 0⟩ :
      EngineState).beats ≠ [] := by simp
  have h2 : (⟨[dummyBeat, dummyBeat], [⟨1, 0, 1⟩], ⟨1, 1 / 2⟩, 1, 0⟩ :
      EngineState).currentBeatIndex
      = (⟨[dummyBeat, dummyBeat], [⟨1, 0, 1⟩], ⟨1, 1 / 2⟩, 1, 0⟩ :
      EngineState).beats.length - 1 := rfl
  have h3 : ((⟨(⟨[dummyBeat, dummyBeat], [⟨1, 0, 1⟩], ⟨1, 1 / 2⟩, 1, 0⟩ :
      EngineState).beats.length - 1, 0, 1⟩ : Edge)
      ∈ (⟨[dummyBeat, dummyBeat], [⟨1, 0, 1⟩], ⟨1, 1 / 2⟩, 1, 0⟩ :
        EngineState).edges) := by
    show (⟨1, 0, 1⟩ : Edge) ∈ [(⟨1, 0, 1⟩ : Edge)]
    exact List.mem_singleton.mpr rfl
  have h4 : (⟨[dummyBeat, dummyBeat], [⟨1, 0, 1⟩], ⟨1, 1 / 2⟩, 1, 0⟩ :
      EngineState).settings.similarityThreshold ≤ (1 : ℚ) := by norm_num
  have h5 : (0 : ℚ) < (⟨[dummyBeat, dummyBeat], [⟨1, 0, 1⟩], ⟨1, 1 / 2⟩, 1, 0⟩ :
      EngineState).settings.branchChance := by norm_num
  exact ⟨h1, h2, h3, h4, h5,
    (advanceBeat_wraparound_branch
      ⟨[dummyBeat, dummyBeat], [⟨1, 0, 1⟩], ⟨1, 1 / 2⟩, 1, 0⟩ 0 1 h1 h2).2 h3 h4 h5⟩

/-- Claim C6 (the code violates it): with an empty beat list — or any
out-of-range `currentBeatIndex` — and `nextNoteTime` inside the lookahead
window, the `while` loop of `scheduler()` never terminates: `scheduleNote` is a
silent no-op and `advanceBeat` returns without advancing `nextNoteTime`, so the
loop condition stays true for every amount of fuel.  The claim says such a tick
completes normally. -/
theorem schedulerTick_hangs (rand : ℕ → ℚ × ℚ) (c t : ℚ) (log : List (ℚ × ℚ × ℚ)) :
    ∀ fuel, schedulerTick true (fun _ => 0) rand fuel ⟨[], [], ⟨c, t⟩, 0, 0⟩ log = none := by
  intro fuel
  induction fuel generalizing log with
  | zero => rfl
  | succ n ih =>
    show schedulerTick true (fun _ => 0) rand (n + 1) ⟨[], [], ⟨c, t⟩, 0, 0⟩ log = none
    rw [schedulerTick, if_pos (by norm_num)]
    exact ih _

/-- Claim C7 (the code violates it): `setData` replaces `beats` and `edges`
wholesale but does NOT reset `currentBeatIndex` — after loading a second track
the playback cursor stays wherever the first track left it (here index 2). -/
theorem setData_keeps_cursor :
    (setData ⟨[dummyBeat, dummyBeat, dummyBeat], [⟨0, 2, 1⟩], ⟨7 / 20, 9 / 20⟩, 2, 5⟩
        [dummyBeat, dummyBeat] []).beats = [dummyBeat, dummyBeat]
    ∧ (setData ⟨[dummyBeat, dummyBeat, dummyBeat], [⟨0, 2, 1⟩], ⟨7 / 20, 9 / 20⟩, 2, 5⟩
        [dummyBeat, dummyBeat] []).edges = []
    ∧ (setData ⟨[dummyBeat, dummyBeat, dummyBeat], [⟨0, 2, 1⟩], ⟨7 / 20, 9 / 20⟩, 2, 5⟩
        [dummyBeat, dummyBeat] []).currentBeatIndex = 2
    ∧ (2 : ℕ) ≠ 0 :=
  ⟨rfl, rfl, rfl, by decide⟩

end InfiniteLoop
